import Mathlib

/-!
A verification development for the minicms content server.

The Go sources are shallowly embedded: Go strings become Lean `String`s
(byte-level operations are performed on the underlying character list),
Go `map[string]*File` fields become duplicate-free `List String` key sets
plus a global path-indexed store, and the `FileManager`'s global
`Files map[string]*File` index becomes an association list from paths to
file records.  Go `nil` slices/maps are modelled with `Option` where the
code distinguishes `nil` from empty (`File.Content`, `PluginResult.Routes`,
`PluginResult.NewContent`).  All definitions are executable; stateful Go
methods become pure functions from states to states.
-/

namespace MiniCms

/-! ## Path cleaning (`path/filepath.Clean`)

`filepath.Clean` (forward-slash form, as used throughout the repository)
is modelled segment-wise: split on `/`, drop empty and `.` segments,
resolve `..` against a stack (dropping `..` at the root of a rooted path,
keeping it for relative paths), and rejoin; an empty relative result is
`.`, an empty rooted result is `/`. -/

/-- Split a character list on the separator character (Go `strings.Split`). -/
def splitSlash : List Char → List (List Char)
  | [] => [[]]
  | c :: rest =>
    let r := splitSlash rest
    if c = '/' then [] :: r
    else match r with
      | [] => [[c]]
      | s :: ss => (c :: s) :: ss

/-- Resolve one path segment against the (reversed) stack of kept segments.
`rooted` tells whether the original path was absolute, in which case `..`
at the top is dropped (`filepath.Clean` semantics). -/
def cleanSeg (rooted : Bool) (acc : List (List Char)) (seg : List Char) : List (List Char) :=
  if seg = [] ∨ seg = ['.'] then acc
  else if seg = ['.', '.'] then
    match acc with
    | [] => if rooted then [] else [['.', '.']]
    | top :: rest => if top = ['.', '.'] then seg :: acc else rest
  else seg :: acc

/-- Clean the segment list of a path (stack is accumulated reversed). -/
def cleanSegs (rooted : Bool) (segs : List (List Char)) : List (List Char) :=
  (segs.foldl (cleanSeg rooted) []).reverse

/-- `filepath.Clean` on the character list of a path. -/
def goCleanData (s : List Char) : List Char :=
  match s with
  | [] => ['.']
  | c :: _ =>
    let rooted : Bool := c = '/'
    let segs := cleanSegs rooted (splitSlash s)
    if rooted then '/' :: (List.intercalate ['/'] segs)
    else if segs = [] then ['.'] else List.intercalate ['/'] segs

/-- `filepath.Clean` on strings, as called by the FileManager and router. -/
def goClean (s : String) : String := String.mk (goCleanData s.data)

/-- Go `strings.HasPrefix s pre`. -/
def goHasPfx (s pfx : String) : Bool := pfx.data.isPrefixOf s.data

/-- Go `filepath.Base`: the last non-empty segment of the path; `.` for the
empty path, `/` when the path consists only of slashes. -/
def goBase (s : String) : String :=
  if s.data = [] then "."
  else
    match ((splitSlash s.data).filter (fun seg => seg ≠ [])).getLast? with
    | some seg => String.mk seg
    | none => if s.data.head? = some '/' then "/" else "."

/-! ## Data model (`filemanager.go`)

`File.Metadata` carries more fields in the source (`title`, `author`,
`tags`, ...); only `MimeType` and `RedirectUrl` are read by the operations
modelled here, so the opaque remainder is omitted.  The `Dependencies` and
`Dependents` fields are Go maps from path to `*File` whose keys always
equal the `Path` of the pointed-to file (`File.AddDependency`), so they are
modelled as their key sets; the pointed-to records live in the manager's
global path index, which is modelled as an association list.  The
`Directory` tree (`parent` pointers, per-directory file maps) only mirrors
the global index and is not modelled. -/

structure FileMeta where
  mimeType : String := ""
  redirectUrl : String := ""
deriving DecidableEq, Repr

structure FileRec where
  name : String := ""
  path : String := ""
  routes : List String := []
  content : Option String := none
  deps : List String := []
  depds : List String := []
  metadata : FileMeta := {}
deriving DecidableEq, Repr

/-- The `FileManager`'s global `Files map[string]*File` index. -/
abbrev FM : Type := List (String × FileRec)

/-- Go map lookup `fm.Files[path]`. -/
def fmGet (fm : FM) (p : String) : Option FileRec :=
  match fm with
  | [] => none
  | (k, f) :: rest => if k = p then some f else fmGet rest p

/-- The key set of the index. -/
def fmKeys (fm : FM) : List String := List.map Prod.fst fm

/-- Go map insertion of a key (`m[k] = v` on a path-key set). -/
def insertAbsent (x : String) (l : List String) : List String :=
  if x ∈ l then l else x :: l

/-- Rewrite every stored record in place (Go mutation through pointers). -/
def mapVals (h : String → FileRec → FileRec) (fm : FM) : FM :=
  List.map (fun kf => (kf.1, h kf.1 kf.2)) fm

/-- Drop the entries whose key fails the predicate (Go `delete`). -/
def filterKeys (q : String → Bool) (fm : FM) : FM :=
  List.filter (fun kf => q kf.1) fm

/-- The `Dependents` key set of the file stored at `p` (empty when absent). -/
def dependentsOf (fm : FM) (p : String) : List String :=
  match fmGet fm p with
  | some f => f.depds
  | none => []

/-! ## `File.MarkForUpdate`: DFS over dependents with a visited set

`markForUpdateRecursive` recurses through `Dependents` pointers, guarded by
a `visited` map keyed by path.  The traversal is modelled as a worklist
DFS; it terminates because each step either shrinks the worklist or visits
a previously unvisited stored path, of which there are finitely many. -/

/-- Number of stored paths not yet visited (the termination measure). -/
def unvisited (fm : FM) (visited : List String) : Nat :=
  ((fmKeys fm).filter (fun k => decide (k ∉ visited))).length

lemma unvisited_cons_le (fm : FM) (visited : List String) (p : String) :
    unvisited fm (p :: visited) ≤ unvisited fm visited := by
  apply List.Sublist.length_le
  apply List.monotone_filter_right
  intro a ha
  simp only [decide_eq_true_eq, List.mem_cons] at *
  tauto

lemma unvisited_cons_lt (fm : FM) (visited : List String) (p : String)
    (hm : p ∈ fmKeys fm) (hv : p ∉ visited) :
    unvisited fm (p :: visited) < unvisited fm visited := by
  have hsub : List.Sublist ((fmKeys fm).filter (fun k => decide (k ∉ p :: visited)))
      ((fmKeys fm).filter (fun k => decide (k ∉ visited))) := by
    apply List.monotone_filter_right
    intro a ha
    simp only [decide_eq_true_eq, List.mem_cons] at *
    tauto
  rcases Nat.lt_or_ge ((List.filter (fun k => decide (k ∉ p :: visited)) (fmKeys fm)).length)
      ((List.filter (fun k => decide (k ∉ visited)) (fmKeys fm)).length) with h | h
  · exact h
  · exfalso
    have heq := hsub.eq_of_length (Nat.le_antisymm (hsub.length_le) h)
    have hp1 : p ∈ (fmKeys fm).filter (fun k => decide (k ∉ visited)) := by
      simp [List.mem_filter, hm, hv]
    rw [← heq] at hp1
    simp [List.mem_filter] at hp1

lemma unvisited_cons_eq (fm : FM) (visited : List String) (p : String)
    (hm : p ∉ fmKeys fm) :
    unvisited fm (p :: visited) = unvisited fm visited := by
  unfold unvisited
  congr 1
  apply List.filter_congr
  intro a ha
  have : a ≠ p := fun h => hm (h ▸ ha)
  simp only [decide_eq_decide, List.mem_cons]
  tauto

lemma fmGet_eq_none_of_not_mem (fm : FM) (p : String) (h : p ∉ fmKeys fm) :
    fmGet fm p = none := by
  induction fm with
  | nil => rfl
  | cons kf rest ih =>
    obtain ⟨k, f⟩ := kf
    simp only [fmKeys, List.map_cons, List.mem_cons] at h
    push_neg at h
    simp only [fmGet, if_neg h.1.symm]
    exact ih h.2

lemma dependentsOf_eq_nil (fm : FM) (p : String) (h : p ∉ fmKeys fm) :
    dependentsOf fm p = [] := by
  unfold dependentsOf
  rw [fmGet_eq_none_of_not_mem fm p h]

/-- Worklist DFS collecting the visited set (the effect of
`markForUpdateRecursive`); the order of the worklist is irrelevant since Go
map iteration order is unspecified. -/
def reachAux (fm : FM) (visited stack : List String) : List String :=
  match stack with
  | [] => visited
  | p :: rest =>
    if p ∈ visited then reachAux fm visited rest
    else reachAux fm (p :: visited) (dependentsOf fm p ++ rest)
termination_by (unvisited fm visited, stack.length)
decreasing_by
  · apply Prod.Lex.right
    simp
  · by_cases hm : p ∈ fmKeys fm
    · exact Prod.Lex.left _ _ (unvisited_cons_lt fm visited p hm (by assumption))
    · rw [unvisited_cons_eq fm visited p hm, dependentsOf_eq_nil fm p hm]
      apply Prod.Lex.right
      simp

/-- The set of paths visited (and hence cleared) by `f.MarkForUpdate()`
when `f` is the file at `p`. -/
def reachSet (fm : FM) (p : String) : List String := reachAux fm [] [p]

/-- `File.MarkForUpdate` at the manager level: clear `Content` of every
stored file visited by the dependents DFS from `p`. -/
def markForUpdate (fm : FM) (p : String) : FM :=
  mapVals (fun k f => if k ∈ reachSet fm p then { f with content := none } else f) fm

/-! ## FileManager operations -/

/-- A fresh `File` as built by `FileManager.AddFile` (content nil, empty
dependency maps). -/
def freshFile (p : String) : FileRec :=
  { name := goBase p, path := p }

/-- `FileManager.AddFile`: create the file if absent, then mark it (and,
through the dependents DFS, its transitive dependents) for update.  The
panic branch for a missing parent directory concerns only the unmodelled
directory tree. -/
def addFile (fm : FM) (p : String) : FM :=
  let cp := goClean p
  let fm1 := match fmGet fm cp with
    | some _ => fm
    | none => fm ++ [(cp, freshFile cp)]
  markForUpdate fm1 cp

/-- Go `delete(f.Dependencies, cleanPath); delete(f.Dependents, cleanPath)`
on a file record. -/
def severKey (cp : String) (f : FileRec) : FileRec :=
  { f with deps := f.deps.filter (fun d => d ≠ cp),
           depds := f.depds.filter (fun d => d ≠ cp) }

/-- `FileManager.RemoveFile`: no-op when absent; otherwise delete the entry,
run `MarkForUpdate` over the (pre-removal) pointer graph, and delete the key
from every remaining `Dependencies`/`Dependents` map. -/
def removeFile (fm : FM) (p : String) : FM :=
  let cp := goClean p
  match fmGet fm cp with
  | none => fm
  | some _ =>
    mapVals (fun _ f => severKey cp f)
      (filterKeys (fun k => k ≠ cp) (markForUpdate fm cp))

/-- `FileManager.RemoveDirectory`: delete every file whose path has the
cleaned argument as a string prefix (`strings.HasPrefix`), and delete those
files' keys from every remaining edge map.  The directory-tree node removal
is not modelled (it mirrors the index). -/
def removeDirectory (fm : FM) (root : String) : FM :=
  let rp := goClean root
  let removed := (fmKeys fm).filter (fun k => goHasPfx k rp)
  mapVals
    (fun _ f => { f with deps := f.deps.filter (fun d => d ∉ removed),
                         depds := f.depds.filter (fun d => d ∉ removed) })
    (filterKeys (fun k => ¬ goHasPfx k rp) fm)

/-- `File.AddDependency(f, other)` for two manager-owned files: both the
forward key and the inverse key are set (on whichever of the two endpoints
is stored; mutation of a non-stored `File` object is invisible to the
manager state). -/
def depAddFun (p q k : String) (f : FileRec) : FileRec :=
  let f1 := if k = p then { f with deps := insertAbsent q f.deps } else f
  if k = q then { f1 with depds := insertAbsent p f1.depds } else f1

def addDependency (fm : FM) (p q : String) : FM :=
  mapVals (depAddFun p q) fm

/-! ## `PluginManager.Process` (the processing pipeline)

A `PluginResult` as returned by one plugin; `Error` and the commented-out
`OutputFiles` block have no effect on the state.  `NewContent` and `Routes`
keep Go's nil/non-nil distinction (`Option`); `Dependencies` is a list of
manager files, identified by path (the built-in plugins obtain them via
`FileManager.GetFile`). -/

structure PluginResultM where
  success : Bool := true
  modified : Bool := false
  newContent : Option String := none
  mimeType : String := ""
  routes : Option (List String) := none
  deps : List String := []
deriving DecidableEq, Repr

/-- One iteration of the plugin loop in `PluginManager.Process`, acting on
the in-flight copy: content when `Modified && NewContent != nil`,
dependency keys via `copy.AddDependency`, mime type when non-empty, routes
when non-nil. -/
def pluginStep (c : FileRec) (r : PluginResultM) : FileRec :=
  let c1 := if r.modified ∧ r.newContent.isSome then { c with content := r.newContent } else c
  let c2 := { c1 with deps := r.deps.foldl (fun ds d => insertAbsent d ds) c1.deps }
  let c3 := if r.mimeType ≠ "" then { c2 with metadata := { c2.metadata with mimeType := r.mimeType } } else c2
  match r.routes with
  | some rts => { c3 with routes := rts }
  | none => c3

/-- The full plugin chain over the in-flight copy, given the results of the
applicable plugins in priority order. -/
def pluginPipeline (c : FileRec) (rs : List PluginResultM) : FileRec :=
  rs.foldl pluginStep c

/-- All dependency paths declared by a chain of plugin results. -/
def depsOf (rs : List PluginResultM) : List String :=
  List.flatten (rs.map (fun r => r.deps))

/-- The stored state as observable DURING pipeline execution, before the
write-back: the struct copy `*file` shares its `Dependencies` and
`Dependents` map headers with the stored record, so `copy.AddDependency`
is visible in the store at once — the stored file at `p` gains the declared
dependency keys, and each stored dependency gains `p` in `Dependents`.
Content, routes and metadata live in the copy and stay unchanged. -/
def processMid (fm : FM) (p : String) (rs : List PluginResultM) : FM :=
  match fmGet fm p with
  | none => fm
  | some f =>
    let c := pluginPipeline f rs
    let fm1 := mapVals (fun k g =>
      if k ∈ depsOf rs then { g with depds := insertAbsent p g.depds } else g) fm
    mapVals (fun k g => if k = p then { g with deps := c.deps } else g) fm1

/-- One iteration of `ProcessUpdatedFiles`/`ProcessAllFiles`: run the
pipeline on the copy, then write the result back under the write lock
(`fm.Files[path] = newFile`).  The written-back record keeps the shared
`Dependents` map of the original. -/
def processFile (fm : FM) (p : String) (rs : List PluginResultM) : FM :=
  match fmGet fm p with
  | none => fm
  | some f =>
    let c := pluginPipeline f rs
    let fm1 := mapVals (fun k g =>
      if k ∈ depsOf rs then { g with depds := insertAbsent p g.depds } else g) fm
    mapVals (fun k g => if k = p then { c with depds := g.depds } else g) fm1

/-! ## The request handler (`RouterManager.makeFileHandler`) -/

inductive HResp where
  | serverError
  | notFound
  | redirect (location : String)
  | ok (contentType : String) (body : String)
deriving DecidableEq, Repr

/-- The closure returned by `makeFileHandler`: 500 when the FileManager is
unset, 404 when the path is gone from the manager, 302 on a redirect
metadata entry, else 200 with the cached content (a nil `Content` serves as
an empty body) and the mime type defaulting to `application/octet-stream`. -/
def makeFileHandler (hasFm : Bool) (fm : FM) (filePath : String) : HResp :=
  if ¬ hasFm then .serverError
  else
    match fmGet fm (goClean filePath) with
    | none => .notFound
    | some file =>
      if file.metadata.redirectUrl ≠ "" then .redirect file.metadata.redirectUrl
      else
        let mime := if file.metadata.mimeType = "" then "application/octet-stream"
                    else file.metadata.mimeType
        .ok mime (file.content.getD "")

/-! ## `FileWatcher` lifecycle (`Start`/`Stop`)

Only the mutex-guarded lifecycle state is modelled; the filesystem checks
at the top of `Start` are abstracted into the `rootOk` flag (stat of the
root path), and `addDirectoryWatch` swallows per-directory errors (its
`filepath.Walk` callback always returns nil), so it never fails `Start`. -/

structure WatcherState where
  running : Bool := false
  cancelled : Bool := false
  watcherClosed : Bool := false
  chanClosed : Bool := false
deriving DecidableEq, Repr

/-- `FileWatcher.Start`: refuse a bad root path, refuse when already
running, else set `running`. -/
def watcherStart (rootOk : Bool) (s : WatcherState) : Except String WatcherState :=
  if ¬ rootOk then .error "failed to access root path"
  else if s.running then .error "file watcher is already running"
  else .ok { s with running := true }

/-- `FileWatcher.Stop`: refuse when not running, else clear `running`,
cancel the context, close the native watcher and the event channel. -/
def watcherStop (s : WatcherState) : Except String WatcherState :=
  if ¬ s.running then .error "file watcher is not running"
  else .ok { running := false, cancelled := true, watcherClosed := true, chanClosed := true }

/-! ## Route normalization (`normalizeRoute`) -/

/-- Go `strings.TrimPrefix(route, "/")`: drop one leading slash if present. -/
def trimLeadSlash : List Char → List Char
  | '/' :: rest => rest
  | l => l

/-- The reassignment `if route == "." { route = "/" }` after cleaning. -/
def fixDot (cleaned : List Char) : List Char :=
  if cleaned = ['.'] then ['/'] else cleaned

/-- `normalizeRoute`: reject the empty route, clean `"/" + TrimPrefix(route,
"/")`, turn a `"."` result back into `"/"`, and reject a result that does
not start with `/`. -/
def normalizeRoute (route : String) : Except String String :=
  if route.data = [] then .error "route cannot be empty"
  else if (fixDot (goCleanData ('/' :: trimLeadSlash route.data))).head? = some '/' then
    .ok (String.mk (fixDot (goCleanData ('/' :: trimLeadSlash route.data))))
  else .error "route must start with /"

/-! ## Basic lookup lemmas -/

lemma fmGet_mapVals (h : String → FileRec → FileRec) (fm : FM) (p : String) :
    fmGet (mapVals h fm) p = (fmGet fm p).map (h p) := by
  induction fm with
  | nil => rfl
  | cons kf rest ih =>
    obtain ⟨k, f⟩ := kf
    by_cases hk : k = p
    · subst hk
      simp [mapVals, fmGet]
    · simp only [mapVals, List.map_cons, fmGet, if_neg hk] at *
      exact ih

lemma fmGet_filterKeys (q : String → Bool) (fm : FM) (p : String) :
    fmGet (filterKeys q fm) p = if q p then fmGet fm p else none := by
  induction fm with
  | nil => simp [filterKeys, fmGet]
  | cons kf rest ih =>
    obtain ⟨k, f⟩ := kf
    rw [filterKeys, List.filter_cons]
    by_cases hq : q k
    · by_cases hk : k = p
      · subst hk
        simp [fmGet, hq]
      · simp only [hq, if_pos, fmGet, if_neg hk]
        exact ih
    · rw [if_neg hq]
      rw [filterKeys] at ih
      rw [ih]
      by_cases hk : k = p
      · subst hk
        simp [fmGet, hq]
      · simp [fmGet, if_neg hk]

lemma fmGet_append (l l2 : FM) (p : String) :
    fmGet (l ++ l2) p = match fmGet l p with
      | some f => some f
      | none => fmGet l2 p := by
  induction l with
  | nil => simp [fmGet]
  | cons kf rest ih =>
    obtain ⟨k, f⟩ := kf
    by_cases hk : k = p
    · subst hk
      simp [fmGet]
    · simp only [List.cons_append, fmGet, if_neg hk]
      exact ih

lemma fmKeys_mapVals (h : String → FileRec → FileRec) (fm : FM) :
    fmKeys (mapVals h fm) = fmKeys fm := by
  induction fm with
  | nil => rfl
  | cons kf rest ih =>
    simp only [mapVals, fmKeys, List.map_cons] at *
    rw [ih]

lemma fmKeys_filterKeys (q : String → Bool) (fm : FM) :
    fmKeys (filterKeys q fm) = (fmKeys fm).filter q := by
  induction fm with
  | nil => rfl
  | cons kf rest ih =>
    obtain ⟨k, f⟩ := kf
    by_cases hq : q k
    · simp only [filterKeys, fmKeys, List.filter_cons, hq, if_pos, List.map_cons] at *
      simp [hq, ih]
    · simp only [filterKeys, fmKeys, List.filter_cons, List.map_cons] at *
      simp [hq] at *
      exact ih

lemma fmGet_isSome_of_mem (fm : FM) (p : String) (h : p ∈ fmKeys fm) :
    (fmGet fm p).isSome := by
  induction fm with
  | nil => simp [fmKeys] at h
  | cons kf rest ih =>
    obtain ⟨k, f⟩ := kf
    by_cases hk : k = p
    · subst hk
      simp [fmGet]
    · simp only [fmKeys, List.map_cons, List.mem_cons] at h
      rcases h with h | h
      · exact absurd h.symm hk
      · simp only [fmGet, if_neg hk]
        exact ih h

lemma mem_fmKeys_of_fmGet (fm : FM) (p : String) (f : FileRec)
    (h : fmGet fm p = some f) : p ∈ fmKeys fm := by
  by_contra hc
  rw [fmGet_eq_none_of_not_mem fm p hc] at h
  exact Option.noConfusion h

lemma mem_insertAbsent (x y : String) (l : List String) :
    x ∈ insertAbsent y l ↔ x = y ∨ x ∈ l := by
  unfold insertAbsent
  by_cases hy : y ∈ l
  · simp only [if_pos hy]
    constructor
    · tauto
    · rintro (rfl | h)
      · exact hy
      · exact h
  · simp [if_neg hy]

/-! ## Claim C10: route normalization never fails on non-empty input -/

lemma goCleanData_rooted (t : List Char) :
    goCleanData ('/' :: t) =
      '/' :: List.intercalate ['/'] (cleanSegs true (splitSlash ('/' :: t))) := by
  simp [goCleanData]

/-- C10: for every non-empty input string, `normalizeRoute` succeeds with a
route that begins with `/` (so the `route must start with /` branch is
unreachable), and the empty string is the only failing input. -/
lemma fixDot_rooted (x : List Char) : fixDot ('/' :: x) = '/' :: x := by
  rw [fixDot, if_neg]
  intro h
  injection h with h1 h2
  exact absurd h1 (by decide)

theorem normalizeRoute_nonempty_ok (r : String) (hr : r ≠ "") :
    (∃ out, normalizeRoute r = Except.ok out ∧ goHasPfx out "/" = true) ∧
    normalizeRoute "" = Except.error "route cannot be empty" := by
  constructor
  · have hd : r.data ≠ [] := by
      intro h
      apply hr
      cases r with
      | mk l =>
        simp only at h
        rw [h]
    refine ⟨String.mk ('/' :: List.intercalate ['/']
      (cleanSegs true (splitSlash ('/' :: trimLeadSlash r.data)))), ?_, ?_⟩
    · rw [normalizeRoute, if_neg hd, goCleanData_rooted, fixDot_rooted]
      simp
    · simp [goHasPfx, List.isPrefixOf]
  · rfl

/-- Witness for C10 at the concrete route `about`. -/
theorem normalizeRoute_nonempty_ok_witness :
    ("about" : String) ≠ "" ∧
    ((∃ out, normalizeRoute "about" = Except.ok out ∧ goHasPfx out "/" = true) ∧
      normalizeRoute "" = Except.error "route cannot be empty") :=
  ⟨by decide, normalizeRoute_nonempty_ok "about" (by decide)⟩

/-! ## Claim C9: watcher lifecycle -/

/-- The state after a successful `Stop()`. -/
def wsStopped : WatcherState :=
  { running := false, cancelled := true, watcherClosed := true, chanClosed := true }

/-- C9 counterexample: starting from the initial state, a successful
`Start` followed by a successful `Stop` does NOT leave the watcher
terminal — a second `Start` succeeds (no error) and sets `running` again,
so the claimed `Unstarted → Running → Stopped, no transition back` state
machine does not hold at the lifecycle-flag level. -/
theorem watcher_start_after_stop_succeeds :
    watcherStart true { } = Except.ok { running := true } ∧
    watcherStop { running := true } = Except.ok wsStopped ∧
    watcherStart true wsStopped = Except.ok { wsStopped with running := true } := by
  refine ⟨rfl, ?_, ?_⟩ <;> rfl

/-- C9 amended: `Start` refuses only while `running` is set; a successful
`Stop` clears `running`, so a subsequent `Start` (with a valid root path)
succeeds and returns the watcher to the running state. -/
theorem watcher_start_fails_iff_running (s s2 : WatcherState)
    (h : watcherStop s = Except.ok s2) :
    s2.running = false ∧
    watcherStart true s2 = Except.ok { s2 with running := true } ∧
    (∀ t : WatcherState, t.running = true →
      watcherStart true t = Except.error "file watcher is already running") := by
  rw [watcherStop] at h
  by_cases hr : s.running
  · rw [if_neg (by simp [hr])] at h
    have h2 : s2 = wsStopped := by
      cases h
      rfl
    subst h2
    refine ⟨rfl, rfl, ?_⟩
    intro t ht
    rw [watcherStart]
    simp [ht]
  · rw [if_pos (by simp [hr])] at h
    exact absurd h (by simp)

/-- Witness for C9 amended, at the running initial state. -/
theorem watcher_start_fails_iff_running_witness :
    watcherStop { running := true } = Except.ok wsStopped ∧
    (wsStopped.running = false ∧
      watcherStart true wsStopped = Except.ok { wsStopped with running := true } ∧
      (∀ t : WatcherState, t.running = true →
        watcherStart true t = Except.error "file watcher is already running")) :=
  ⟨rfl, watcher_start_fails_iff_running { running := true } wsStopped rfl⟩

/-! ## Claim C4: handler behaviour for files with absent content -/

/-- A stored content file whose `Content` is nil (marked for rebuild). -/
def fmStale : FM := [("content/stale.html", { path := "content/stale.html" })]

/-- C4 counterexample: the handler has no 404 branch for absent content —
for a stored file with nil `Content` and no redirect it answers 200 with an
empty body (and the default mime type), not 404 as the claim states. -/
theorem handler_absent_content_not_404 :
    (fmGet fmStale "content/stale.html").isSome = true ∧
    (fmGet fmStale "content/stale.html").map (fun f => f.content) = some none ∧
    makeFileHandler true fmStale "content/stale.html" =
      HResp.ok "application/octet-stream" "" ∧
    makeFileHandler true fmStale "content/stale.html" ≠ HResp.notFound := by
  decide

/-- C4 amended: for a stored file with empty `redirectUrl`, the handler
always answers 200 — body is the cached content (empty when absent) and
Content-Type is the mime type, defaulting to `application/octet-stream`;
absent content does NOT produce a 404. -/
theorem handler_serves_content_with_default_mime (fm : FM) (fp : String) (file : FileRec)
    (hget : fmGet fm (goClean fp) = some file)
    (hre : file.metadata.redirectUrl = "") :
    makeFileHandler true fm fp =
      HResp.ok (if file.metadata.mimeType = "" then "application/octet-stream"
                else file.metadata.mimeType)
        (file.content.getD "") := by
  simp [makeFileHandler, hget, hre]

/-- Witness for C4 amended at a concrete store. -/
theorem handler_serves_content_with_default_mime_witness :
    fmGet [(("content/a.html" : String),
        ({ path := "content/a.html", content := some "<h1>A</h1>",
           metadata := { mimeType := "text/html" } } : FileRec))] (goClean "content/a.html") =
      some { path := "content/a.html", content := some "<h1>A</h1>",
             metadata := { mimeType := "text/html" } } ∧
    makeFileHandler true [(("content/a.html" : String),
        ({ path := "content/a.html", content := some "<h1>A</h1>",
           metadata := { mimeType := "text/html" } } : FileRec))] "content/a.html" =
      HResp.ok (if ("text/html" : String) = "" then "application/octet-stream" else "text/html")
        ((some "<h1>A</h1>").getD "") :=
  ⟨by decide,
    handler_serves_content_with_default_mime _ _
      { path := "content/a.html", content := some "<h1>A</h1>",
        metadata := { mimeType := "text/html" } } (by decide) rfl⟩

/-! ## Claim C5: failed plugin results -/

/-- A file mid-pipeline with original content. -/
def fileOrig : FileRec := { path := "content/a.md", content := some "orig" }

/-- A failure result that nonetheless carries contributions. -/
def failWithPayload : PluginResultM :=
  { success := false, modified := true, newContent := some "evil",
    mimeType := "text/x", routes := some ["/evil"] }

/-- C5 counterexample: `PluginManager.Process` never inspects the
`Success` flag, so a failure result that carries contributions has them
applied — content, mime type and routes of the in-flight copy all change. -/
theorem plugin_failure_contributions_kept :
    failWithPayload.success = false ∧
    (pluginPipeline fileOrig [failWithPayload]).content = some "evil" ∧
    (pluginPipeline fileOrig [failWithPayload]).metadata.mimeType = "text/x" ∧
    (pluginPipeline fileOrig [failWithPayload]).routes = ["/evil"] := by
  decide

/-- C5 amended: the pipeline ignores the success flag; a failed plugin's
contributions are discarded exactly when its failure result carries none
(`Modified` false, nil `NewContent`, empty `MimeType`, nil `Routes`, no
dependencies — the shape every built-in plugin returns on failure), and
the remaining plugins then run against the unchanged content. -/
theorem plugin_empty_failure_discarded (c : FileRec) (r : PluginResultM)
    (rs : List PluginResultM) (_hs : r.success = false) (hm : r.modified = false)
    (hc : r.newContent = none) (hmt : r.mimeType = "") (hrt : r.routes = none)
    (hd : r.deps = []) :
    pluginStep c r = c ∧ pluginPipeline c (r :: rs) = pluginPipeline c rs := by
  have h1 : pluginStep c r = c := by
    rw [pluginStep]
    simp [hm, hc, hmt, hrt, hd]
  refine ⟨h1, ?_⟩
  rw [pluginPipeline, List.foldl_cons, h1]
  rfl

/-- Witness for C5 amended: an empty failure result followed by a
successful plugin. -/
theorem plugin_empty_failure_discarded_witness :
    ({ success := false } : PluginResultM).success = false ∧
    (pluginStep fileOrig { success := false } = fileOrig ∧
      pluginPipeline fileOrig ({ success := false } :: [failWithPayload]) =
        pluginPipeline fileOrig [failWithPayload]) :=
  ⟨rfl, plugin_empty_failure_discarded fileOrig { success := false } [failWithPayload]
    rfl rfl rfl rfl rfl rfl⟩

/-! ## Claim C6: what pipeline execution mutates in the store -/

/-- A content page and a layout file it will depend on. -/
def fmPage : FM :=
  [("content/page.html", { path := "content/page.html", content := some "body" }),
   ("layout/header.html", { path := "layout/header.html", content := some "hdr" })]

/-- A successful plugin run declaring a dependency on the layout header. -/
def rsPage : List PluginResultM :=
  [{ modified := true, newContent := some "new", deps := ["layout/header.html"] }]

/-- C6 counterexample: the `File` copy handed to the pipeline shares its
`Dependencies`/`Dependents` map headers with the stored record, so during
pipeline execution — before any write-back — the stored page already gains
the declared dependency key and the stored layout file already gains the
inverse key; the stored state is NOT left unchanged.  (Content is still
untouched mid-run: only the write-back publishes it.) -/
theorem pipeline_mutates_shared_dep_maps :
    processMid fmPage "content/page.html" rsPage ≠ fmPage ∧
    (fmGet (processMid fmPage "content/page.html" rsPage) "content/page.html").map
      (fun f => f.deps) = some ["layout/header.html"] ∧
    (fmGet (processMid fmPage "content/page.html" rsPage) "layout/header.html").map
      (fun f => f.depds) = some ["content/page.html"] ∧
    (fmGet (processMid fmPage "content/page.html" rsPage) "content/page.html").map
      (fun f => f.content) = some (some "body") := by
  decide

/-- C6 amended: during pipeline execution (before the write-back) no stored
file's content, routes, metadata, name or path changes — only the shared
`Dependencies`/`Dependents` map fields of stored files are mutated. -/
theorem pipeline_preserves_content_routes_metadata (fm : FM) (p : String)
    (rs : List PluginResultM) (q : String) (f1 : FileRec)
    (h1 : fmGet (processMid fm p rs) q = some f1) :
    ∃ f0, fmGet fm q = some f0 ∧ f1.content = f0.content ∧ f1.routes = f0.routes ∧
      f1.metadata = f0.metadata ∧ f1.name = f0.name ∧ f1.path = f0.path := by
  rw [processMid] at h1
  cases hp : fmGet fm p with
  | none =>
    rw [hp] at h1
    exact ⟨f1, h1, rfl, rfl, rfl, rfl, rfl⟩
  | some f =>
    rw [hp, fmGet_mapVals, fmGet_mapVals] at h1
    cases hq : fmGet fm q with
    | none =>
      rw [hq] at h1
      simp at h1
    | some f0 =>
      rw [hq] at h1
      simp only [Option.map_some'] at h1
      refine ⟨f0, rfl, ?_, ?_, ?_, ?_, ?_⟩ <;>
        · rw [← Option.some.inj h1]
          by_cases hqp : q = p <;> by_cases hqd : q ∈ depsOf rs <;>
            simp [hqp, hqd] <;> split <;> rfl

/-- The stored page record as observable mid-pipeline. -/
def pageAfterMid : FileRec :=
  { path := "content/page.html", content := some "body", deps := ["layout/header.html"] }

/-- Witness for C6 amended at the concrete page store. -/
theorem pipeline_preserves_content_routes_metadata_witness :
    fmGet (processMid fmPage "content/page.html" rsPage) "content/page.html" =
      some pageAfterMid ∧
    (∃ f0, fmGet fmPage "content/page.html" = some f0 ∧
      pageAfterMid.content = f0.content ∧ pageAfterMid.routes = f0.routes ∧
      pageAfterMid.metadata = f0.metadata ∧ pageAfterMid.name = f0.name ∧
      pageAfterMid.path = f0.path) :=
  ⟨by decide,
    pipeline_preserves_content_routes_metadata fmPage "content/page.html" rsPage
      "content/page.html" pageAfterMid (by decide)⟩

/-! ## Claims C7 and C8: `RemoveDirectory` -/

/-- A file inside `content/ab` and a SIBLING `content/abc` that merely
shares `content/ab` as a string prefix. -/
def fmSibling : FM :=
  [("content/ab/x.html", { path := "content/ab/x.html", content := some "x" }),
   ("content/abc", { path := "content/abc", content := some "keep" })]

/-- C7, evaluated at the failing input: `RemoveDirectory` selects files
with `strings.HasPrefix(path, rootPath)` and no separator check, so
`RemoveDirectory("content/ab")` also destroys the sibling `content/abc`,
which is not in the `content/ab` subtree — contradicting the documented
`removes all files under the given path` contract. -/
theorem removeDirectory_prefix_sibling_removed :
    goHasPfx "content/abc" "content/ab" = true ∧
    fmGet (removeDirectory fmSibling "content/ab") "content/ab/x.html" = none ∧
    fmGet (removeDirectory fmSibling "content/ab") "content/abc" = none := by
  decide

/-- A layout file with one dependent content page. -/
def fmLayout : FM :=
  [("layout/header.html",
     { path := "layout/header.html", content := some "hdr", depds := ["content/index.html"] }),
   ("content/index.html",
     { path := "content/index.html", content := some "<old>", deps := ["layout/header.html"] })]

/-- The surviving page after `RemoveDirectory("layout")`. -/
def pageAfterRemoveDir : FileRec :=
  { path := "content/index.html", content := some "<old>" }

/-- C8, evaluated at the failing input: `RemoveDirectory` severs the edges
of the destroyed layout file but never calls `MarkForUpdate`, so the
surviving dependent page keeps its stale content (`some "<old>"` instead of
the `none` that marking for rebuild would produce, and that `RemoveFile`
does produce in the same situation). -/
theorem removeDirectory_keeps_dependent_content :
    fmGet (removeDirectory fmLayout "layout") "layout/header.html" = none ∧
    fmGet (removeDirectory fmLayout "layout") "content/index.html" =
      some pageAfterRemoveDir ∧
    pageAfterRemoveDir.content = some "<old>" ∧
    pageAfterRemoveDir.deps = [] ∧ pageAfterRemoveDir.depds = [] := by
  decide

/-! ## Claim C2: the dependents DFS visits exactly the reachable set, once -/

/-- One dependent edge of the graph. -/
def DepEdge (fm : FM) (a b : String) : Prop := b ∈ dependentsOf fm a

/-- Reachability along dependent edges. -/
def Reach (fm : FM) : String → String → Prop := Relation.ReflTransGen (DepEdge fm)

lemma reachAux_sub (fm : FM) (visited stack : List String) :
    visited ⊆ reachAux fm visited stack := by
  refine reachAux.induct fm (fun v s => v ⊆ reachAux fm v s) ?_ ?_ ?_ visited stack
  · intro v
    rw [reachAux]
    exact fun x hx => hx
  · intro v p rest hmem ih
    rw [reachAux, if_pos hmem]
    exact ih
  · intro v p rest hmem ih
    rw [reachAux, if_neg hmem]
    exact fun x hx => ih (List.mem_cons_of_mem _ hx)

lemma reachAux_stack_sub (fm : FM) (visited stack : List String) :
    ∀ s ∈ stack, s ∈ reachAux fm visited stack := by
  refine reachAux.induct fm (fun v st => ∀ s ∈ st, s ∈ reachAux fm v st) ?_ ?_ ?_ visited stack
  · intro v s hs
    exact absurd hs (List.not_mem_nil s)
  · intro v p rest hmem ih s hs
    rw [reachAux, if_pos hmem]
    rcases List.mem_cons.mp hs with rfl | h2
    · exact reachAux_sub fm v rest hmem
    · exact ih s h2
  · intro v p rest hmem ih s hs
    rw [reachAux, if_neg hmem]
    rcases List.mem_cons.mp hs with rfl | h2
    · exact reachAux_sub fm (s :: v) _ (List.mem_cons_self _ _)
    · exact ih s (List.mem_append_right _ h2)

lemma reachAux_nodup (fm : FM) (visited stack : List String) (h : visited.Nodup) :
    (reachAux fm visited stack).Nodup := by
  refine reachAux.induct fm (fun v st => v.Nodup → (reachAux fm v st).Nodup) ?_ ?_ ?_
    visited stack h
  · intro v hv
    rw [reachAux]
    exact hv
  · intro v p rest hmem ih hv
    rw [reachAux, if_pos hmem]
    exact ih hv
  · intro v p rest hmem ih hv
    rw [reachAux, if_neg hmem]
    exact ih (List.nodup_cons.mpr ⟨hmem, hv⟩)

lemma reachAux_sound (fm : FM) (visited stack : List String) :
    ∀ q ∈ reachAux fm visited stack, q ∈ visited ∨ ∃ s ∈ stack, Reach fm s q := by
  refine reachAux.induct fm
    (fun v st => ∀ q ∈ reachAux fm v st, q ∈ v ∨ ∃ s ∈ st, Reach fm s q) ?_ ?_ ?_
    visited stack
  · intro v q hq
    rw [reachAux] at hq
    exact Or.inl hq
  · intro v p rest hmem ih q hq
    rw [reachAux, if_pos hmem] at hq
    rcases ih q hq with h | ⟨s, hs, hr⟩
    · exact Or.inl h
    · exact Or.inr ⟨s, List.mem_cons_of_mem _ hs, hr⟩
  · intro v p rest hmem ih q hq
    rw [reachAux, if_neg hmem] at hq
    rcases ih q hq with h | ⟨s, hs, hr⟩
    · rcases List.mem_cons.mp h with rfl | h2
      · exact Or.inr ⟨q, List.mem_cons_self _ _, Relation.ReflTransGen.refl⟩
      · exact Or.inl h2
    · rcases List.mem_append.mp hs with h3 | h3
      · exact Or.inr ⟨p, List.mem_cons_self _ _, Relation.ReflTransGen.head h3 hr⟩
      · exact Or.inr ⟨s, List.mem_cons_of_mem _ h3, hr⟩

lemma reachAux_closed (fm : FM) (visited stack : List String)
    (hinv : ∀ v ∈ visited, ∀ d ∈ dependentsOf fm v, d ∈ visited ∨ d ∈ stack) :
    ∀ v ∈ reachAux fm visited stack, ∀ d ∈ dependentsOf fm v,
      d ∈ reachAux fm visited stack := by
  refine reachAux.induct fm
    (fun vis st => (∀ v ∈ vis, ∀ d ∈ dependentsOf fm v, d ∈ vis ∨ d ∈ st) →
      ∀ v ∈ reachAux fm vis st, ∀ d ∈ dependentsOf fm v, d ∈ reachAux fm vis st) ?_ ?_ ?_
    visited stack hinv
  · intro vis hi v hv d hd
    rw [reachAux] at hv ⊢
    rcases hi v hv d hd with h | h
    · exact h
    · exact absurd h (List.not_mem_nil d)
  · intro vis p rest hmem ih hi
    rw [reachAux, if_pos hmem]
    apply ih
    intro v hv d hd
    rcases hi v hv d hd with h | h
    · exact Or.inl h
    · rcases List.mem_cons.mp h with rfl | h2
      · exact Or.inl hmem
      · exact Or.inr h2
  · intro vis p rest hmem ih hi
    rw [reachAux, if_neg hmem]
    apply ih
    intro v hv d hd
    rcases List.mem_cons.mp hv with rfl | hv2
    · exact Or.inr (List.mem_append_left _ hd)
    · rcases hi v hv2 d hd with h | h
      · exact Or.inl (List.mem_cons_of_mem _ h)
      · rcases List.mem_cons.mp h with rfl | h2
        · exact Or.inl (List.mem_cons_self _ _)
        · exact Or.inr (List.mem_append_right _ h2)

lemma reach_mem_closed (fm : FM) (R : List String)
    (hcl : ∀ v ∈ R, ∀ d ∈ dependentsOf fm v, d ∈ R)
    (s q : String) (hs : s ∈ R) (hr : Reach fm s q) : q ∈ R := by
  induction hr with
  | refl => exact hs
  | tail _ hbc ih => exact hcl _ ih _ hbc

lemma reachSet_iff (fm : FM) (p q : String) :
    q ∈ reachSet fm p ↔ Reach fm p q := by
  constructor
  · intro h
    rcases reachAux_sound fm [] [p] q h with h1 | ⟨s, hs, hr⟩
    · exact absurd h1 (List.not_mem_nil q)
    · rcases List.mem_singleton.mp hs with rfl
      exact hr
  · intro h
    refine reach_mem_closed fm (reachSet fm p) ?_ p q ?_ h
    · exact reachAux_closed fm [] [p] (by simp)
    · exact reachAux_stack_sub fm [] [p] p (List.mem_singleton_self p)

/-- C2: `MarkForUpdate` terminates on every finite graph, cyclic ones
included — `reachAux` is a total function, defined by well-founded
recursion on the number of unvisited stored paths — and the visited set it
builds is duplicate-free (each node is cleared exactly once) and contains
exactly the files reachable from the start along dependent edges; each
stored file's content is cleared iff it is visited. -/
theorem markForUpdate_clears_reachable_once (fm : FM) (p : String) :
    (reachSet fm p).Nodup ∧
    (∀ q, q ∈ reachSet fm p ↔ Reach fm p q) ∧
    (∀ q f0, fmGet fm q = some f0 →
      fmGet (markForUpdate fm p) q =
        some (if q ∈ reachSet fm p then { f0 with content := none } else f0)) := by
  refine ⟨reachAux_nodup fm [] [p] List.nodup_nil, fun q => reachSet_iff fm p q, ?_⟩
  intro q f0 h0
  rw [markForUpdate, fmGet_mapVals, h0, Option.map_some']

/-- The two-node dependency cycle of spec scenario 6. -/
def fmCycle : FM :=
  [("a", { path := "a", content := some "A", deps := ["b"], depds := ["b"] }),
   ("b", { path := "b", content := some "B", deps := ["a"], depds := ["a"] })]

/-- Witness for C2 on the cyclic graph: marking `a` clears `b` as well. -/
theorem markForUpdate_clears_reachable_once_witness :
    fmGet fmCycle "b" = some { path := "b", content := some "B", deps := ["a"], depds := ["a"] } ∧
    fmGet (markForUpdate fmCycle "a") "b" =
      some (if "b" ∈ reachSet fmCycle "a" then
        { ({ path := "b", content := some "B", deps := ["a"], depds := ["a"] } : FileRec) with
            content := none }
        else { path := "b", content := some "B", deps := ["a"], depds := ["a"] }) :=
  ⟨by decide,
    (markForUpdate_clears_reachable_once fmCycle "a").2.2 "b"
      { path := "b", content := some "B", deps := ["a"], depds := ["a"] } (by decide)⟩

/-! ## Claim C1: `RemoveFile` -/

/-- C1: after `RemoveFile(p)` on a stored path, the path is gone from the
index; every surviving file that was a (transitive) dependent of `p` has
its content cleared; and no surviving `Dependencies` or `Dependents` map
contains the removed key. -/
theorem removeFile_spec (fm : FM) (p : String) (file : FileRec)
    (hget : fmGet fm (goClean p) = some file) :
    fmGet (removeFile fm p) (goClean p) = none ∧
    (∀ q f0, q ≠ goClean p → fmGet fm q = some f0 →
      ∃ f1, fmGet (removeFile fm p) q = some f1 ∧
        (Reach fm (goClean p) q → f1.content = none) ∧
        goClean p ∉ f1.deps ∧ goClean p ∉ f1.depds) := by
  have hrw : removeFile fm p =
      mapVals (fun _ f => severKey (goClean p) f)
        (filterKeys (fun k => k ≠ goClean p) (markForUpdate fm (goClean p))) := by
    simp only [removeFile, hget]
  constructor
  · rw [hrw, fmGet_mapVals, fmGet_filterKeys]
    simp
  · intro q f0 hne h0
    have hm : fmGet (markForUpdate fm (goClean p)) q =
        some (if q ∈ reachSet fm (goClean p) then { f0 with content := none } else f0) := by
      rw [markForUpdate, fmGet_mapVals, h0, Option.map_some']
    set g : FileRec := if q ∈ reachSet fm (goClean p) then { f0 with content := none } else f0
      with hg
    refine ⟨severKey (goClean p) g, ?_, ?_, ?_, ?_⟩
    · rw [hrw, fmGet_mapVals, fmGet_filterKeys, if_pos (by simpa using hne), hm,
        Option.map_some']
    · intro hreach
      rw [← reachSet_iff] at hreach
      show g.content = none
      rw [hg, if_pos hreach]
    · simp [severKey]
    · simp [severKey]

/-- Witness for C1: removing the layout header clears the dependent page's
content and severs both edge maps. -/
theorem removeFile_spec_witness :
    fmGet fmLayout (goClean "layout/header.html") =
      some { path := "layout/header.html", content := some "hdr",
             depds := ["content/index.html"] } ∧
    ("content/index.html" : String) ≠ goClean "layout/header.html" ∧
    fmGet fmLayout "content/index.html" =
      some { path := "content/index.html", content := some "<old>",
             deps := ["layout/header.html"] } ∧
    fmGet (removeFile fmLayout "layout/header.html") (goClean "layout/header.html") = none ∧
    (∃ f1, fmGet (removeFile fmLayout "layout/header.html") "content/index.html" = some f1 ∧
      (Reach fmLayout (goClean "layout/header.html") "content/index.html" →
        f1.content = none) ∧
      goClean "layout/header.html" ∉ f1.deps ∧ goClean "layout/header.html" ∉ f1.depds) :=
  ⟨by decide, by decide, by decide,
    (removeFile_spec fmLayout "layout/header.html"
      { path := "layout/header.html", content := some "hdr",
        depds := ["content/index.html"] } (by decide)).1,
    (removeFile_spec fmLayout "layout/header.html"
      { path := "layout/header.html", content := some "hdr",
        depds := ["content/index.html"] } (by decide)).2 "content/index.html"
      { path := "content/index.html", content := some "<old>",
        deps := ["layout/header.html"] } (by decide) (by decide)⟩

/-! ## Claim C3: the dependency/dependent inverse invariant

`WF` is the manager's graph well-formedness: unique index keys, no edge
key dangling outside the index, and the spec's invariant
`g ∈ f.dependencies ⇔ f ∈ g.dependents`.  `wfB` is its executable form. -/

def EdgesOK (fm : FM) : Prop :=
  ∀ p fp, fmGet fm p = some fp →
    (∀ d ∈ fp.deps, d ∈ fmKeys fm) ∧ (∀ d ∈ fp.depds, d ∈ fmKeys fm)

def Inv (fm : FM) : Prop :=
  ∀ p q fp fq, fmGet fm p = some fp → fmGet fm q = some fq →
    (q ∈ fp.deps ↔ p ∈ fq.depds)

def WF (fm : FM) : Prop := (fmKeys fm).Nodup ∧ EdgesOK fm ∧ Inv fm

def wfB (fm : FM) : Bool :=
  decide (fmKeys fm).Nodup &&
  fm.all (fun kf => kf.2.deps.all (fun d => decide (d ∈ fmKeys fm)) &&
                    kf.2.depds.all (fun d => decide (d ∈ fmKeys fm))) &&
  fm.all (fun pf => fm.all (fun qf =>
    decide ((qf.1 ∈ pf.2.deps) ↔ (pf.1 ∈ qf.2.depds))))

lemma fmGet_of_mem_nodup (fm : FM) (k : String) (f : FileRec)
    (hnd : (fmKeys fm).Nodup) (hmem : (k, f) ∈ fm) : fmGet fm k = some f := by
  induction fm with
  | nil => exact absurd hmem (List.not_mem_nil _)
  | cons kg rest ih =>
    obtain ⟨k2, g⟩ := kg
    simp only [fmKeys, List.map_cons, List.nodup_cons] at hnd
    rcases List.mem_cons.mp hmem with heq | h2
    · cases heq
      simp [fmGet]
    · have hk : k2 ≠ k := by
        intro he
        subst he
        exact hnd.1 (List.mem_map_of_mem Prod.fst h2)
      simp only [fmGet, if_neg hk]
      exact ih hnd.2 h2

lemma mem_of_fmGet (fm : FM) (k : String) (f : FileRec)
    (h : fmGet fm k = some f) : (k, f) ∈ fm := by
  induction fm with
  | nil => exact absurd h (by simp [fmGet])
  | cons kg rest ih =>
    obtain ⟨k2, g⟩ := kg
    by_cases hk : k2 = k
    · subst hk
      rw [fmGet, if_pos rfl] at h
      obtain rfl := Option.some.inj h
      exact List.mem_cons_self _ _
    · rw [fmGet, if_neg hk] at h
      exact List.mem_cons_of_mem _ (ih h)

lemma wfB_iff_WF (fm : FM) : wfB fm = true ↔ WF fm := by
  rw [wfB, WF]
  simp only [Bool.and_eq_true, List.all_eq_true, decide_eq_true_eq]
  constructor
  · rintro ⟨⟨hnd, hedges⟩, hinv⟩
    refine ⟨hnd, ?_, ?_⟩
    · intro p fp hget
      have hm := mem_of_fmGet fm p fp hget
      have := hedges (p, fp) hm
      exact ⟨fun d hd => (this.1 d hd), fun d hd => (this.2 d hd)⟩
    · intro p q fp fq hp hq
      exact hinv (p, fp) (mem_of_fmGet fm p fp hp) (q, fq) (mem_of_fmGet fm q fq hq)
  · rintro ⟨hnd, hedges, hinv⟩
    refine ⟨⟨hnd, ?_⟩, ?_⟩
    · rintro ⟨k, f⟩ hm
      have := hedges k f (fmGet_of_mem_nodup fm k f hnd hm)
      exact ⟨fun d hd => this.1 d hd, fun d hd => this.2 d hd⟩
    · rintro ⟨a, fa⟩ ha ⟨b, fb⟩ hb
      exact hinv a b fa fb (fmGet_of_mem_nodup fm a fa hnd ha)
        (fmGet_of_mem_nodup fm b fb hnd hb)

/-- Rewriting records in place without touching the edge maps (such as
`MarkForUpdate`'s content clearing) preserves `WF`. -/
lemma WF_mapVals_edges_id (fm : FM) (h : String → FileRec → FileRec)
    (hkeep : ∀ k f, (h k f).deps = f.deps ∧ (h k f).depds = f.depds)
    (hwf : WF fm) : WF (mapVals h fm) := by
  obtain ⟨hnd, hedges, hinv⟩ := hwf
  refine ⟨by rw [fmKeys_mapVals]; exact hnd, ?_, ?_⟩
  · intro p fp hget
    rw [fmGet_mapVals] at hget
    cases h0 : fmGet fm p with
    | none => rw [h0] at hget; exact absurd hget (by simp)
    | some f0 =>
      rw [h0, Option.map_some'] at hget
      obtain rfl := Option.some.inj hget
      rw [fmKeys_mapVals, (hkeep p f0).1, (hkeep p f0).2]
      exact hedges p f0 h0
  · intro a b fa fb ha hb
    rw [fmGet_mapVals] at ha hb
    cases h0 : fmGet fm a with
    | none => rw [h0] at ha; exact absurd ha (by simp)
    | some fa0 =>
      cases h1 : fmGet fm b with
      | none => rw [h1] at hb; exact absurd hb (by simp)
      | some fb0 =>
        rw [h0, Option.map_some'] at ha
        rw [h1, Option.map_some'] at hb
        obtain rfl := Option.some.inj ha
        obtain rfl := Option.some.inj hb
        rw [(hkeep a fa0).1, (hkeep b fb0).2]
        exact hinv a b fa0 fb0 h0 h1

lemma WF_markForUpdate (fm : FM) (p : String) (hwf : WF fm) :
    WF (markForUpdate fm p) := by
  rw [markForUpdate]
  apply WF_mapVals_edges_id fm _ _ hwf
  intro k f
  by_cases hk : k ∈ reachSet fm p <;> simp [hk]

/-- `File.AddDependency` on two manager-owned files preserves `WF`. -/
lemma WF_addDependency (fm : FM) (p q : String) (hp : p ∈ fmKeys fm)
    (hq : q ∈ fmKeys fm) (hwf : WF fm) : WF (addDependency fm p q) := by
  obtain ⟨hnd, hedges, hinv⟩ := hwf
  have hdeps : ∀ k f, depAddFun p q k f =
      { f with deps := if k = p then insertAbsent q f.deps else f.deps,
               depds := if k = q then insertAbsent p f.depds else f.depds } := by
    intro k f
    rw [depAddFun]
    by_cases h1 : k = p
    · subst h1
      by_cases h2 : k = q
      · subst h2
        simp
      · simp [h2]
    · by_cases h2 : k = q
      · subst h2
        simp [h1]
      · simp [h1, h2]
  rw [addDependency]
  refine ⟨by rw [fmKeys_mapVals]; exact hnd, ?_, ?_⟩
  · intro a fa hget
    rw [fmGet_mapVals] at hget
    cases h0 : fmGet fm a with
    | none => rw [h0] at hget; exact absurd hget (by simp)
    | some f0 =>
      rw [h0, Option.map_some'] at hget
      obtain rfl := Option.some.inj hget
      rw [hdeps a f0, fmKeys_mapVals]
      constructor
      · intro d hd
        by_cases h1 : a = p
        · simp only [h1, if_pos] at hd
          rcases (mem_insertAbsent d q f0.deps).mp hd with rfl | hd2
          · exact hq
          · exact (hedges a f0 h0).1 d hd2
        · simp only [if_neg h1] at hd
          exact (hedges a f0 h0).1 d hd
      · intro d hd
        by_cases h2 : a = q
        · simp only [h2, if_pos] at hd
          rcases (mem_insertAbsent d p f0.depds).mp hd with rfl | hd2
          · exact hp
          · exact (hedges a f0 h0).2 d hd2
        · simp only [if_neg h2] at hd
          exact (hedges a f0 h0).2 d hd
  · intro a b fa fb ha hb
    rw [fmGet_mapVals] at ha hb
    cases h0 : fmGet fm a with
    | none => rw [h0] at ha; exact absurd ha (by simp)
    | some fa0 =>
      cases h1 : fmGet fm b with
      | none => rw [h1] at hb; exact absurd hb (by simp)
      | some fb0 =>
        rw [h0, Option.map_some'] at ha
        rw [h1, Option.map_some'] at hb
        obtain rfl := Option.some.inj ha
        obtain rfl := Option.some.inj hb
        rw [hdeps a fa0, hdeps b fb0]
        simp only
        have hbase := hinv a b fa0 fb0 h0 h1
        by_cases hap : a = p
        · subst hap
          by_cases hbq : b = q
          · subst hbq
            simp [mem_insertAbsent]
          · simp [mem_insertAbsent, hbq]
            tauto
        · by_cases hbq : b = q
          · subst hbq
            simp [mem_insertAbsent, hap]
            tauto
          · simp [hap, hbq]
            tauto

lemma fmKeys_append (l l2 : FM) : fmKeys (l ++ l2) = fmKeys l ++ fmKeys l2 :=
  List.map_append _ _ _

/-- `FileManager.AddFile` preserves `WF`: a fresh file enters with empty
edge maps, and the subsequent `MarkForUpdate` touches only content. -/
lemma WF_addFile (fm : FM) (p : String) (hwf : WF fm) : WF (addFile fm p) := by
  cases h : fmGet fm (goClean p) with
  | some f =>
    have hrw : addFile fm p = markForUpdate fm (goClean p) := by
      simp only [addFile, h]
    rw [hrw]
    exact WF_markForUpdate fm (goClean p) hwf
  | none =>
    have hrw : addFile fm p =
        markForUpdate (fm ++ [(goClean p, freshFile (goClean p))]) (goClean p) := by
      simp only [addFile, h]
    rw [hrw]
    apply WF_markForUpdate
    obtain ⟨hnd, hedges, hinv⟩ := hwf
    have hcp : goClean p ∉ fmKeys fm := by
      intro hmem
      have h2 := fmGet_isSome_of_mem fm (goClean p) hmem
      rw [h] at h2
      exact absurd h2 (by simp)
    refine ⟨?_, ?_, ?_⟩
    · rw [fmKeys_append]
      refine List.Nodup.append hnd (List.nodup_singleton _) ?_
      intro a ha hb
      have : a = goClean p := by simpa [fmKeys] using hb
      exact hcp (this ▸ ha)
    · intro a fa hget
      rw [fmGet_append] at hget
      cases h0 : fmGet fm a with
      | some f0 =>
        rw [h0] at hget
        obtain rfl := Option.some.inj hget
        have h2 := hedges a f0 h0
        rw [fmKeys_append]
        exact ⟨fun d hd => List.mem_append_left _ (h2.1 d hd),
               fun d hd => List.mem_append_left _ (h2.2 d hd)⟩
      | none =>
        rw [h0] at hget
        by_cases hca : goClean p = a
        · simp only [fmGet, if_pos hca] at hget
          obtain rfl := Option.some.inj hget
          simp [freshFile]
        · simp only [fmGet, if_neg hca] at hget
          exact absurd hget (by simp)
    · intro a b fa fb hga hgb
      rw [fmGet_append] at hga hgb
      cases h0 : fmGet fm a with
      | some fa0 =>
        rw [h0] at hga
        obtain rfl := Option.some.inj hga
        cases h1 : fmGet fm b with
        | some fb0 =>
          rw [h1] at hgb
          obtain rfl := Option.some.inj hgb
          exact hinv a b fa0 fb0 h0 h1
        | none =>
          rw [h1] at hgb
          by_cases hcb : goClean p = b
          · simp only [fmGet, if_pos hcb] at hgb
            obtain rfl := Option.some.inj hgb
            constructor
            · intro hmem
              exact absurd (hcb ▸ (hedges a fa0 h0).1 b hmem) hcp
            · intro hmem
              exact absurd hmem (by simp [freshFile])
          · simp only [fmGet, if_neg hcb] at hgb
            exact absurd hgb (by simp)
      | none =>
        rw [h0] at hga
        by_cases hca : goClean p = a
        · simp only [fmGet, if_pos hca] at hga
          obtain rfl := Option.some.inj hga
          cases h1 : fmGet fm b with
          | some fb0 =>
            rw [h1] at hgb
            obtain rfl := Option.some.inj hgb
            constructor
            · intro hmem
              exact absurd hmem (by simp [freshFile])
            · intro hmem
              exact absurd (hca ▸ (hedges b fb0 h1).2 a hmem) hcp
          | none =>
            rw [h1] at hgb
            by_cases hcb : goClean p = b
            · simp only [fmGet, if_pos hcb] at hgb
              obtain rfl := Option.some.inj hgb
              simp [freshFile]
            · simp only [fmGet, if_neg hcb] at hgb
              exact absurd hgb (by simp)
        · simp only [fmGet, if_neg hca] at hga
          exact absurd hga (by simp)

/-- Dropping a set of keys from the index and filtering the same keys out
of every edge map preserves `WF`, provided the two predicates agree on
stored keys. -/
lemma WF_sever (g : FM) (keepKey keepEdge : String → Bool)
    (hagree : ∀ d ∈ fmKeys g, keepEdge d = keepKey d) (hwf : WF g) :
    WF (mapVals (fun _ f => { f with deps := f.deps.filter keepEdge,
                                     depds := f.depds.filter keepEdge })
        (filterKeys keepKey g)) := by
  obtain ⟨hnd, hedges, hinv⟩ := hwf
  refine ⟨?_, ?_, ?_⟩
  · rw [fmKeys_mapVals, fmKeys_filterKeys]
    exact hnd.filter _
  · intro a fa hget
    rw [fmGet_mapVals, fmGet_filterKeys] at hget
    by_cases hka : keepKey a
    · rw [if_pos hka] at hget
      cases h0 : fmGet g a with
      | none =>
        rw [h0] at hget
        exact absurd hget (by simp)
      | some f0 =>
        rw [h0, Option.map_some'] at hget
        obtain rfl := Option.some.inj hget
        rw [fmKeys_mapVals, fmKeys_filterKeys]
        constructor
        · intro d hd
          rw [List.mem_filter] at hd ⊢
          have hdk := (hedges a f0 h0).1 d hd.1
          exact ⟨hdk, by rw [← hagree d hdk]; exact hd.2⟩
        · intro d hd
          rw [List.mem_filter] at hd ⊢
          have hdk := (hedges a f0 h0).2 d hd.1
          exact ⟨hdk, by rw [← hagree d hdk]; exact hd.2⟩
    · rw [if_neg hka] at hget
      exact absurd hget (by simp)
  · intro a b fa fb hga hgb
    rw [fmGet_mapVals, fmGet_filterKeys] at hga hgb
    by_cases hka : keepKey a
    · rw [if_pos hka] at hga
      cases h0 : fmGet g a with
      | none =>
        rw [h0] at hga
        exact absurd hga (by simp)
      | some fa0 =>
        rw [h0, Option.map_some'] at hga
        obtain rfl := Option.some.inj hga
        by_cases hkb : keepKey b
        · rw [if_pos hkb] at hgb
          cases h1 : fmGet g b with
          | none =>
            rw [h1] at hgb
            exact absurd hgb (by simp)
          | some fb0 =>
            rw [h1, Option.map_some'] at hgb
            obtain rfl := Option.some.inj hgb
            have hbase := hinv a b fa0 fb0 h0 h1
            have hea : keepEdge a = true := by
              rw [hagree a (mem_fmKeys_of_fmGet g a fa0 h0)]
              exact hka
            have heb : keepEdge b = true := by
              rw [hagree b (mem_fmKeys_of_fmGet g b fb0 h1)]
              exact hkb
            simp only [List.mem_filter]
            constructor
            · intro hd
              exact ⟨hbase.mp hd.1, hea⟩
            · intro hd
              exact ⟨hbase.mpr hd.1, heb⟩
        · rw [if_neg hkb] at hgb
          exact absurd hgb (by simp)
    · rw [if_neg hka] at hga
      exact absurd hga (by simp)

lemma WF_removeFile (fm : FM) (p : String) (hwf : WF fm) : WF (removeFile fm p) := by
  cases h : fmGet fm (goClean p) with
  | none =>
    have hrw : removeFile fm p = fm := by simp only [removeFile, h]
    rwa [hrw]
  | some f =>
    have hrw : removeFile fm p = mapVals (fun _ f => severKey (goClean p) f)
        (filterKeys (fun k => k ≠ goClean p) (markForUpdate fm (goClean p))) := by
      simp only [removeFile, h]
    rw [hrw]
    exact WF_sever _ _ _ (fun d _ => rfl) (WF_markForUpdate fm (goClean p) hwf)

lemma WF_removeDirectory (fm : FM) (root : String) (hwf : WF fm) :
    WF (removeDirectory fm root) := by
  rw [removeDirectory]
  refine WF_sever fm _ _ ?_ hwf
  intro d hd
  apply decide_eq_decide.mpr
  constructor
  · intro hnr
    intro hpfx
    exact hnr (List.mem_filter.mpr ⟨hd, hpfx⟩)
  · intro hnp hmem
    exact hnp (List.mem_filter.mp hmem).2

lemma mem_foldl_insertAbsent (l2 acc : List String) (x : String) :
    x ∈ l2.foldl (fun ds d => insertAbsent d ds) acc ↔ x ∈ acc ∨ x ∈ l2 := by
  induction l2 generalizing acc with
  | nil => simp
  | cons d rest ih =>
    rw [List.foldl_cons, ih, mem_insertAbsent]
    simp only [List.mem_cons]
    tauto

lemma pluginStep_mem_deps (c : FileRec) (r : PluginResultM) (x : String) :
    x ∈ (pluginStep c r).deps ↔ x ∈ c.deps ∨ x ∈ r.deps := by
  rw [pluginStep]
  by_cases h1 : (r.modified = true ∧ r.newContent.isSome = true) <;>
    by_cases h2 : r.mimeType ≠ "" <;>
      cases h3 : r.routes <;>
        simp [h1, h2, h3, mem_foldl_insertAbsent]

lemma mem_depsOf_cons (r : PluginResultM) (rest : List PluginResultM) (x : String) :
    x ∈ depsOf (r :: rest) ↔ x ∈ r.deps ∨ x ∈ depsOf rest := by
  simp [depsOf]

lemma pipeline_mem_deps (f : FileRec) (rs : List PluginResultM) (x : String) :
    x ∈ (pluginPipeline f rs).deps ↔ x ∈ f.deps ∨ x ∈ depsOf rs := by
  induction rs generalizing f with
  | nil => simp [pluginPipeline, depsOf]
  | cons r rest ih =>
    rw [pluginPipeline, List.foldl_cons]
    have hfold : List.foldl pluginStep (pluginStep f r) rest =
        pluginPipeline (pluginStep f r) rest := rfl
    rw [hfold, ih, pluginStep_mem_deps, mem_depsOf_cons]
    tauto

/-- One pipeline write-back (`ProcessUpdatedFiles` loop body) preserves
`WF` when the plugin-declared dependencies are manager files. -/
lemma WF_processFile (fm : FM) (p : String) (rs : List PluginResultM)
    (hds : ∀ d ∈ depsOf rs, d ∈ fmKeys fm) (hwf : WF fm) :
    WF (processFile fm p rs) := by
  obtain ⟨hnd, hedges, hinv⟩ := hwf
  cases hp : fmGet fm p with
  | none =>
    have hrw : processFile fm p rs = fm := by simp only [processFile, hp]
    rw [hrw]
    exact ⟨hnd, hedges, hinv⟩
  | some f =>
    have hpk : p ∈ fmKeys fm := mem_fmKeys_of_fmGet fm p f hp
    have hrw : processFile fm p rs =
        mapVals (fun k g => if k = p then { pluginPipeline f rs with depds := g.depds } else g)
          (mapVals (fun k g =>
            if k ∈ depsOf rs then { g with depds := insertAbsent p g.depds } else g) fm) := by
      simp only [processFile, hp]
    rw [hrw]
    have hsome : ∀ a fa,
        fmGet (mapVals (fun k g => if k = p then { pluginPipeline f rs with depds := g.depds }
            else g)
          (mapVals (fun k g =>
            if k ∈ depsOf rs then { g with depds := insertAbsent p g.depds } else g) fm)) a =
          some fa →
        ∃ g, fmGet fm a = some g ∧
          fa.deps = (if a = p then (pluginPipeline f rs).deps else g.deps) ∧
          fa.depds = (if a ∈ depsOf rs then insertAbsent p g.depds else g.depds) := by
      intro a fa hget
      rw [fmGet_mapVals, fmGet_mapVals] at hget
      cases h0 : fmGet fm a with
      | none =>
        rw [h0] at hget
        exact absurd hget (by simp)
      | some g =>
        rw [h0, Option.map_some', Option.map_some'] at hget
        obtain rfl := Option.some.inj hget
        refine ⟨g, rfl, ?_, ?_⟩
        · by_cases hap : a = p
          · subst hap
            by_cases had : a ∈ depsOf rs <;> simp [had]
          · by_cases had : a ∈ depsOf rs <;> simp [hap, had]
        · by_cases hap : a = p
          · subst hap
            by_cases had : a ∈ depsOf rs <;> simp [had]
          · by_cases had : a ∈ depsOf rs <;> simp [hap, had]
    refine ⟨?_, ?_, ?_⟩
    · rw [fmKeys_mapVals, fmKeys_mapVals]
      exact hnd
    · intro a fa hget
      obtain ⟨g, h0, hde, hdd⟩ := hsome a fa hget
      rw [fmKeys_mapVals, fmKeys_mapVals]
      have ha0 := hedges a g h0
      constructor
      · intro d hd
        rw [hde] at hd
        by_cases hap : a = p
        · rw [if_pos hap] at hd
          rcases (pipeline_mem_deps f rs d).mp hd with h | h
          · exact (hedges p f hp).1 d h
          · exact hds d h
        · rw [if_neg hap] at hd
          exact ha0.1 d hd
      · intro d hd
        rw [hdd] at hd
        by_cases had : a ∈ depsOf rs
        · rw [if_pos had] at hd
          rcases (mem_insertAbsent d p g.depds).mp hd with rfl | h
          · exact hpk
          · exact ha0.2 d h
        · rw [if_neg had] at hd
          exact ha0.2 d hd
    · intro a b fa fb hga hgb
      obtain ⟨ga, h0, hdeA, hddA⟩ := hsome a fa hga
      obtain ⟨gb, h1, hdeB, hddB⟩ := hsome b fb hgb
      rw [hdeA, hddB]
      by_cases hap : a = p
      · have hbase : b ∈ f.deps ↔ a ∈ gb.depds := by
          have hgf : ga = f := by
            rw [hap, hp] at h0
            exact (Option.some.inj h0).symm
          rw [← hgf]
          exact hinv a b ga gb h0 h1
        rw [if_pos hap]
        by_cases hbd : b ∈ depsOf rs
        · rw [if_pos hbd]
          constructor
          · intro _
            exact (mem_insertAbsent a p gb.depds).mpr (Or.inl hap)
          · intro _
            exact (pipeline_mem_deps f rs b).mpr (Or.inr hbd)
        · rw [if_neg hbd, pipeline_mem_deps]
          constructor
          · rintro (h | h)
            · exact hbase.mp h
            · exact absurd h hbd
          · intro h
            exact Or.inl (hbase.mpr h)
      · have hbase := hinv a b ga gb h0 h1
        rw [if_neg hap]
        by_cases hbd : b ∈ depsOf rs
        · rw [if_pos hbd, mem_insertAbsent]
          constructor
          · intro h
            exact Or.inr (hbase.mp h)
          · rintro (rfl | h)
            · exact absurd rfl hap
            · exact hbase.mpr h
        · rw [if_neg hbd]
          exact hbase

/-- The FileManager operations named by the invariant claim. -/
inductive FMOp where
  | depAdd (p q : String)
  | fileAdd (p : String)
  | fileRemove (p : String)
  | dirRemove (p : String)
  | pipelineRun (p : String) (rs : List PluginResultM)

def applyOp (fm : FM) : FMOp → FM
  | FMOp.depAdd p q => addDependency fm p q
  | FMOp.fileAdd p => addFile fm p
  | FMOp.fileRemove p => removeFile fm p
  | FMOp.dirRemove p => removeDirectory fm p
  | FMOp.pipelineRun p rs => processFile fm p rs

/-- Side condition under which an operation is exercised by the system:
`AddDependency` relates two Files of the FileManager, and plugin-declared
dependencies are Files of the FileManager (the built-in plugins obtain them
via `GetFile`). -/
def opOKb (fm : FM) : FMOp → Bool
  | FMOp.depAdd p q => decide (p ∈ fmKeys fm) && decide (q ∈ fmKeys fm)
  | FMOp.pipelineRun _ rs => (depsOf rs).all (fun d => decide (d ∈ fmKeys fm))
  | _ => true

def applyOps (fm : FM) (ops : List FMOp) : FM := ops.foldl applyOp fm

def opsOKb (fm : FM) : List FMOp → Bool
  | [] => true
  | op :: rest => opOKb fm op && opsOKb (applyOp fm op) rest

lemma WF_applyOp (fm : FM) (op : FMOp) (hok : opOKb fm op = true) (hwf : WF fm) :
    WF (applyOp fm op) := by
  cases op with
  | depAdd p q =>
    simp only [opOKb, Bool.and_eq_true, decide_eq_true_eq] at hok
    exact WF_addDependency fm p q hok.1 hok.2 hwf
  | fileAdd p => exact WF_addFile fm p hwf
  | fileRemove p => exact WF_removeFile fm p hwf
  | dirRemove p => exact WF_removeDirectory fm p hwf
  | pipelineRun p rs =>
    simp only [opOKb, List.all_eq_true, decide_eq_true_eq] at hok
    exact WF_processFile fm p rs hok hwf

lemma WF_applyOps (fm : FM) (ops : List FMOp) (hok : opsOKb fm ops = true)
    (hwf : WF fm) : WF (applyOps fm ops) := by
  induction ops generalizing fm with
  | nil => exact hwf
  | cons op rest ih =>
    rw [opsOKb, Bool.and_eq_true] at hok
    exact ih (applyOp fm op) hok.2 (WF_applyOp fm op hok.1 hwf)

/-- C3: the inverse-edge invariant `g ∈ f.Dependencies ⇔ f ∈ g.Dependents`
(together with key uniqueness and no dangling edge keys, packaged as `wfB`)
is preserved by every FileManager operation — `AddDependency` on manager
files, `AddFile`, `RemoveFile`, `RemoveDirectory`, and pipeline
processing with manager-file dependencies — and hence by every sequence of
such operations. -/
theorem dependency_inverse_invariant_preserved (fm : FM) (ops : List FMOp)
    (hwf : wfB fm = true) (hok : opsOKb fm ops = true) :
    wfB (applyOps fm ops) = true ∧
    (∀ a b fa fb, fmGet (applyOps fm ops) a = some fa →
      fmGet (applyOps fm ops) b = some fb → (b ∈ fa.deps ↔ a ∈ fb.depds)) := by
  have h := WF_applyOps fm ops hok ((wfB_iff_WF fm).mp hwf)
  exact ⟨(wfB_iff_WF _).mpr h, fun a b fa fb ha hb => h.2.2 a b fa fb ha hb⟩

/-- An operation sequence touching the non-DFS operation kinds. -/
def opsW : List FMOp :=
  [FMOp.depAdd "content/index.html" "layout/header.html",
   FMOp.pipelineRun "content/index.html" [{ deps := ["layout/header.html"] }],
   FMOp.dirRemove "layout"]

/-- Witness for C3 on the concrete layout store. -/
theorem dependency_inverse_invariant_preserved_witness :
    wfB fmLayout = true ∧ opsOKb fmLayout opsW = true ∧
    (wfB (applyOps fmLayout opsW) = true ∧
      (∀ a b fa fb, fmGet (applyOps fmLayout opsW) a = some fa →
        fmGet (applyOps fmLayout opsW) b = some fb → (b ∈ fa.deps ↔ a ∈ fb.depds))) :=
  ⟨by decide, by decide,
    dependency_inverse_invariant_preserved fmLayout opsW (by decide) (by decide)⟩

end MiniCms
